import Mathlib

/-!
# Shallow embedding of the CPMC per-sweep update pipeline

The repository ships `src/update.h`: the declarations and behaviour
comments of the per-sweep update pipeline (`remove_vertices`,
`remove_only_fixed_vertices`, `swapping_graphs`, `insert_vertices`,
`clustering`, `flip_cluster`).  The function bodies and the data
definitions (`dtype.h`) are not under `src/`, so every definition below is
modelled from the specification text and the header's documentation
comments, and the claims are settled against these models.

Randomness is embedded deterministically: each random stream is an input
function (indexed by vertex position or cluster root), so one definition
covers every possible sequence of draws.
-/

/-- Modelled from the spec: a `vertex` record (its definition lives in the
missing `dtype.h`) — a time-stamped event acting on the sites of one bond.
`state` holds the leg states: entries `0 .. hNspin-1` are the states before
the vertex (incoming legs) and entries `hNspin .. 2*hNspin-1` the states
after it (outgoing legs), one per incident site. -/
structure Vertex where
  tau : ℚ
  bond : ℕ
  hNspin : ℕ
  state : List ℤ
deriving DecidableEq

instance : Inhabited Vertex := ⟨⟨0, 0, 0, []⟩⟩

/-- State on the `i`-th incoming leg. -/
def Vertex.stateIn (v : Vertex) (i : ℕ) : ℤ := v.state.getD i 0

/-- State on the `i`-th outgoing leg. -/
def Vertex.stateOut (v : Vertex) (i : ℕ) : ℤ := v.state.getD (v.hNspin + i) 0

/-- Modelled from the spec: a vertex is a no-op event iff no leg's state
changes across it; `changesState` is the retention test of Removal. -/
def Vertex.changesState (v : Vertex) : Bool :=
  (List.range v.hNspin).any (fun i => decide (v.stateIn i ≠ v.stateOut i))

/-- Modelled from the spec: infection events act on the two sites of a
bond, recovery events on one site. -/
def Vertex.isInfection (v : Vertex) : Bool := decide (2 ≤ v.hNspin)

/-- Modelled from the spec: the `world_line` record (missing `dtype.h`) —
double-buffered vertex sequences with an active-buffer flag, per-site
boundary-state arrays `istate`/`pstate`, union-find scratch arrays
`cluster`/`weight` over flat leg identifiers, per-site first/last-leg
indices filled by `clustering` (`none` is the sentinel for the boundary),
and the process-wide infection/recovery counters. -/
structure world_line where
  sequenceA : List Vertex
  sequenceB : List Vertex
  flag : Bool
  nsite : ℕ
  istate : ℕ → ℤ
  pstate : ℕ → ℤ
  cluster : ℕ → ℕ
  weight : ℕ → ℤ
  firstLeg : ℕ → Option ℕ
  lastLeg : ℕ → Option ℕ
  ninfection : ℕ
  nrecover : ℕ

/-- The active sequence, selected by the flag. -/
def world_line.active (w : world_line) : List Vertex :=
  if w.flag then w.sequenceB else w.sequenceA

/-- Write a sequence into the inactive buffer and toggle the flag (the
buffer swap that ends Removal and Insertion). -/
def world_line.withActive (w : world_line) (l : List Vertex) : world_line :=
  if w.flag then { w with sequenceA := l, flag := false }
  else { w with sequenceB := l, flag := true }

/-- Overwrite the active buffer in place, without toggling the flag (used
by the stages that perform no buffer swap). -/
def world_line.withActiveInPlace (w : world_line) (l : List Vertex) : world_line :=
  if w.flag then { w with sequenceB := l } else { w with sequenceA := l }

/-- Modelled from the spec: `remove_vertices` (declared in `src/update.h`,
body not in `src/`) walks the active sequence in time order, retains
exactly the vertices with at least one state-changing leg, appends them in
order to the other buffer, toggles the flag, and updates the
infection/recovery counters from the kinds of the retained vertices. -/
def remove_vertices (w : world_line) : world_line :=
  let kept := w.active.filter Vertex.changesState
  { w.withActive kept with
    ninfection := w.ninfection + (kept.filter Vertex.isInfection).length
    nrecover := w.nrecover + (kept.filter (fun v => !v.isInfection)).length }

/-- Modelled from the spec: one end of a link in a bond subtype's linking
pattern — either a leg slot on the current vertex (flat slot `0..3`, two
incoming then two outgoing legs, stride 4 per vertex), or the last-touch
leg of the `k`-th site incident to the vertex's bond. -/
inductive LegRef where
  | slot : Fin 4 → LegRef
  | lastT : Fin 2 → LegRef
deriving DecidableEq

/-- Modelled from the spec: one link of a subtype's linking pattern — the
two leg references it joins and the per-link weight contribution the model
assigns to it. -/
structure LinkEntry where
  a : LegRef
  b : LegRef
  wt : ℤ
deriving DecidableEq

/-- Modelled from the spec: the immutable `model` descriptor (its
definition lives outside `src/`) — site count, bond-to-subtype table,
bond-site incidence, the same-family bond reassignment table used by the
Bond Resampler, the per-subtype linking table used by Cluster Building,
and the state-dependent insertion rule used by Insertion. -/
structure model where
  nsite : ℕ
  nbond : ℕ
  bond2type : ℕ → ℕ
  bondNspin : ℕ → ℕ
  bondSite : ℕ → ℕ → ℕ
  sameFamilyBond : ℕ → ℕ → ℕ
  link : ℕ → List LinkEntry
  insertValid : ℕ → (ℕ → ℤ) → Bool

/-- Modelled from the spec: the subtype families — `{1,3,5}` and `{2,4,6}`
are the two three-way exchangeable families, `{7,8}` the two-way pair. -/
def typeFamily (t : ℕ) : ℕ :=
  if t = 1 ∨ t = 3 ∨ t = 5 then 0
  else if t = 2 ∨ t = 4 ∨ t = 6 then 1
  else if t = 7 ∨ t = 8 then 2
  else 3

/-- Modelled from the spec: the Bond Resampler's action on a single
vertex.  Subtypes `{1,3,5}` and `{2,4,6}` get a uniformly drawn member of
their own family (`r` is the uniform draw, reduced mod 3); subtype `7`
toggles to its partner by adding the site count and subtype `8` by
subtracting it, driven by the fair coin `c`; other vertices are left
alone.  Only the bond identifier is touched. -/
def swapBond (m : model) (r : ℕ) (c : Bool) (b : ℕ) : ℕ :=
  let t := m.bond2type b
  if t = 1 ∨ t = 3 ∨ t = 5 then m.sameFamilyBond (r % 3) b
  else if t = 2 ∨ t = 4 ∨ t = 6 then m.sameFamilyBond (r % 3) b
  else if t = 7 then (if c then b + m.nsite else b)
  else if t = 8 then (if c then b - m.nsite else b)
  else b

/-- The resampler's per-vertex action: only the bond field is rewritten. -/
def swapVertex (m : model) (r : ℕ) (c : Bool) (v : Vertex) : Vertex :=
  { v with bond := swapBond m r c v.bond }

/-- Map a function of the element's position over a list, the position
starting from `i` (the in-place per-vertex loops of the pipeline). -/
def mapFrom {α : Type} (f : ℕ → α → α) : ℕ → List α → List α
  | _, [] => []
  | i, a :: l => f i a :: mapFrom f (i + 1) l

/-- Modelled from the spec: `swapping_graphs` (declared in `src/update.h`,
body not in `src/`) relabels each vertex's bond within its subtype family,
in place on the active buffer: no reordering, no buffer swap.  `rngU i`
and `rngC i` are the uniform draw and the fair coin consumed at vertex
`i`. -/
def swapping_graphs (m : model) (rngU : ℕ → ℕ) (rngC : ℕ → Bool)
    (w : world_line) : world_line :=
  w.withActiveInPlace (mapFrom (fun i v => swapVertex m (rngU i) (rngC i) v) 0 w.active)

/-- Flat leg identifier: vertex ordinal `i`, incidence slot `j` (stride 4:
up to two incoming and two outgoing legs per vertex). -/
def legId (i j : ℕ) : ℕ := 4 * i + j

/-- Chase parent pointers for at most `fuel` steps (the union-find `find`;
with enough fuel this reaches the self-parented root). -/
def findRoot (p : ℕ → ℕ) : ℕ → ℕ → ℕ
  | 0, i => i
  | fuel + 1, i => if p i = i then i else findRoot p fuel (p i)

/-- Union-find scratch state over flat leg identifiers: parent pointers and
per-root aggregate weights (the `cluster` and `weight` arrays). -/
structure UF where
  parent : ℕ → ℕ
  wgt : ℕ → ℤ

/-- Modelled from the spec: join the clusters of legs `a` and `b` and fold
the link's weight contribution `t` into the surviving root's aggregate
weight.  `n` is the leg count, used as find fuel. -/
def UF.union (u : UF) (n a b : ℕ) (t : ℤ) : UF :=
  let ra := findRoot u.parent n a
  let rb := findRoot u.parent n b
  if ra = rb then
    { u with wgt := fun j => if j = rb then u.wgt rb + t else u.wgt j }
  else
    { parent := fun j => if j = ra then rb else u.parent j
      wgt := fun j =>
        if j = rb then u.wgt ra + u.wgt rb + t
        else if j = ra then 0 else u.wgt j }

/-- The running state of the Cluster Building scan: the union-find arrays
and, per site, the first leg seen and the last-touch leg (`none` is the
sentinel for the site's initial-state boundary; the optional open-boundary
link is disabled, as in the source's comments). -/
structure ClusterScan where
  uf : UF
  fstL : ℕ → Option ℕ
  lstL : ℕ → Option ℕ

/-- Resolve one end of a link pattern at vertex `i`: a slot names one of
the vertex's own legs, `lastT k` names the last-touch leg of the `k`-th
site of the vertex's bond (unresolved at the boundary sentinel). -/
def resolveRef (m : model) (v : Vertex) (i : ℕ) (lst : ℕ → Option ℕ) :
    LegRef → Option ℕ
  | .slot j => some (legId i j.val)
  | .lastT k => lst (m.bondSite v.bond k.val)

/-- Record the first leg seen per site: each `(site, leg)` pair is written
only where the site still carries the boundary sentinel. -/
def updFirst : List (ℕ × ℕ) → (ℕ → Option ℕ) → ℕ → Option ℕ
  | [], f => f
  | (s, l) :: rest, f =>
    updFirst rest
      (match f s with
       | some _ => f
       | none => fun x => if x = s then some l else f x)

/-- Move each site's last-touch to the given leg. -/
def updLast : List (ℕ × ℕ) → (ℕ → Option ℕ) → ℕ → Option ℕ
  | [], f => f
  | (s, l) :: rest, f => updLast rest (fun x => if x = s then some l else f x)

/-- The `(site, incoming leg)` pairs of vertex `i`. -/
def inSites (m : model) (i : ℕ) (v : Vertex) : List (ℕ × ℕ) :=
  (List.range v.hNspin).map (fun k => (m.bondSite v.bond k, legId i k))

/-- The `(site, outgoing leg)` pairs of vertex `i`. -/
def outSites (m : model) (i : ℕ) (v : Vertex) : List (ℕ × ℕ) :=
  (List.range v.hNspin).map (fun k => (m.bondSite v.bond k, legId i (v.hNspin + k)))

/-- Modelled from the spec: process vertex `i` during Cluster Building —
union the leg pairs named by the bond subtype's linking pattern
(accumulating each link's weight contribution), record the first leg seen
on each incident site, and move each incident site's last-touch to the
vertex's outgoing leg. -/
def clusterStep (m : model) (n : ℕ) (st : ClusterScan) (i : ℕ) (v : Vertex) :
    ClusterScan :=
  let entries := m.link (m.bond2type v.bond)
  let uf2 := entries.foldl (fun u e =>
    match resolveRef m v i st.lstL e.a, resolveRef m v i st.lstL e.b with
    | some x, some y => u.union n x y e.wt
    | _, _ => u) st.uf
  { uf := uf2
    fstL := updFirst (inSites m i v) st.fstL
    lstL := updLast (outSites m i v) st.lstL }

/-- The Cluster Building scan over the active sequence, vertex `i`
onwards. -/
def clusterScanAux (m : model) (n : ℕ) : ℕ → List Vertex → ClusterScan → ClusterScan
  | _, [], st => st
  | i, v :: vs, st => clusterScanAux m n (i + 1) vs (clusterStep m n st i v)

/-- The initial scan state: every leg is its own cluster of weight zero;
every site's first/last-touch is the boundary sentinel. -/
def initScan : ClusterScan :=
  ⟨⟨fun j => j, fun _ => 0⟩, fun _ => none, fun _ => none⟩

/-- Modelled from the spec: `clustering` (declared in `src/update.h`, body
not in `src/`) scans the active sequence once in time order, links vertex
legs into clusters by the model's per-subtype linking table, and rebuilds
the `cluster`/`weight` scratch arrays and the per-site first/last leg
indices.  No sequence mutation and no buffer swap occur. -/
def clustering (w : world_line) (m : model) : world_line :=
  let n := 4 * w.active.length
  let fin := clusterScanAux m n 0 w.active initScan
  { w with
    cluster := fin.uf.parent
    weight := fin.uf.wgt
    firstLeg := fin.fstL
    lastLeg := fin.lstL }

/-- The cluster root of a flat leg identifier. -/
def rootOf (w : world_line) (l : ℕ) : ℕ :=
  findRoot w.cluster (4 * w.active.length) l

/-- The full flat leg set of the active sequence. -/
def legIds (w : world_line) : Finset ℕ := Finset.range (4 * w.active.length)

/-- The cluster with root `r`: the legs whose union-find root is `r`. -/
def clusterOf (w : world_line) (r : ℕ) : Finset ℕ :=
  (legIds w).filter (fun l => rootOf w l = r)

/-- Modelled from the spec: the flip decision for a cluster root — a free
cluster (aggregate weight zero) flips unconditionally; otherwise the
weight-dependent random acceptance draw `rngF` for that root decides.
Indexing the draw by the root embeds "exactly one random decision per
distinct cluster root". -/
def flipDecision (w : world_line) (rngF : ℕ → Bool) (r : ℕ) : Bool :=
  if w.weight r = 0 then true else rngF r

/-- Apply the flip decisions to the legs of vertex `i`: a leg's state is
inverted exactly when its cluster's decision is "flip". -/
def flipVertex (w : world_line) (rngF : ℕ → Bool) (n i : ℕ) (v : Vertex) : Vertex :=
  { v with
    state :=
      mapFrom
        (fun j s =>
          if flipDecision w rngF (findRoot w.cluster n (legId i j)) then -s
          else s)
        0 v.state }

/-- The state sitting on flat leg `l` of a sequence (stride-4 decoding). -/
def legState (seq : List Vertex) (l : ℕ) : ℤ :=
  (seq.getD (l / 4) default).state.getD (l % 4) 0

/-- Modelled from the spec: `flip_cluster` (declared in `src/update.h`,
body not in `src/`) draws one decision per cluster root, inverts every leg
of every flipped cluster in place (no buffer swap), then recomputes each
site's initial (`istate`) and projected (`pstate`) boundary states from
the post-flip state of the site's first and last legs; a site with the
boundary sentinel (touched by no vertex) draws the independent random
state `rngS`. -/
def flip_cluster (w : world_line) (rngF : ℕ → Bool) (rngS : ℕ → ℤ) : world_line :=
  let n := 4 * w.active.length
  let seq2 := mapFrom (flipVertex w rngF n) 0 w.active
  { w.withActiveInPlace seq2 with
    istate := fun s =>
      match w.firstLeg s with
      | some l => legState seq2 l
      | none => rngS s
    pstate := fun s =>
      match w.lastLeg s with
      | some l => legState seq2 l
      | none => rngS s }

/-- Filter a list by a predicate on position and element, positions
starting at `i`. -/
def filterFrom {α : Type} (p : ℕ → α → Bool) : ℕ → List α → List α
  | _, [] => []
  | i, a :: l =>
    if p i a then a :: filterFrom p (i + 1) l else filterFrom p (i + 1) l

/-- Modelled from the spec: the retention test of the restricted Removal —
vertex `i` is kept iff some leg changes state across it or some of its
legs lies in a cluster of nonzero weight (a non-free cluster). -/
def keepFixed (w : world_line) (i : ℕ) (v : Vertex) : Bool :=
  v.changesState ||
    (List.range (2 * v.hNspin)).any
      (fun j => decide (w.weight (rootOf w (legId i j)) ≠ 0))

/-- Modelled from the spec: `remove_only_fixed_vertices` (declared in
`src/update.h`, body not in `src/`) — the Removal variant used when a
prior clustering pass is still valid: same scan as `remove_vertices`, but
retention also keeps vertices belonging to non-free clusters; writes the
kept vertices to the other buffer, toggles the flag, updates the
counters. -/
def remove_only_fixed_vertices (w : world_line) : world_line :=
  let kept := filterFrom (keepFixed w) 0 w.active
  { w.withActive kept with
    ninfection := w.ninfection + (kept.filter Vertex.isInfection).length
    nrecover := w.nrecover + (kept.filter (fun v => !v.isInfection)).length }

/-- Modelled from the spec: a candidate insertion point — a sampled time
and the bond drawn for it. -/
structure Cand where
  tau : ℚ
  bond : ℕ
deriving DecidableEq

/-- Modelled from the spec: the diagonal vertex built for an accepted
candidate — its leg states copy the working state of the bond's sites,
identically before and after the event. -/
def mkVertex (m : model) (c : Cand) (ws : ℕ → ℤ) : Vertex :=
  let ns := m.bondNspin c.bond
  let sts := (List.range ns).map (fun k => ws (m.bondSite c.bond k))
  ⟨c.tau, c.bond, ns, sts ++ sts⟩

/-- Thread a vertex through the working-state array: each incident site
takes the vertex's outgoing state. -/
def applyVertex (m : model) (v : Vertex) (ws : ℕ → ℤ) : ℕ → ℤ :=
  fun s =>
    match (List.range v.hNspin).find? (fun k => decide (m.bondSite v.bond k = s)) with
    | some k => v.stateOut k
    | none => ws s

/-- Copy the existing vertices with timestamp at most `t` (the fixed
tiebreak orders an existing vertex before a candidate of equal time),
updating the working state; returns the emitted prefix, the remaining
vertices and the working state after the prefix. -/
def takeUpTo (m : model) (t : ℚ) :
    List Vertex → (ℕ → ℤ) → List Vertex × List Vertex × (ℕ → ℤ)
  | [], ws => ([], [], ws)
  | v :: vs, ws =>
    if v.tau ≤ t then
      let r := takeUpTo m t vs (applyVertex m v ws)
      (v :: r.1, r.2.1, r.2.2)
    else ([], v :: vs, ws)

/-- Modelled from the spec: the chronological merge of Insertion — at each
candidate time, first copy through the existing vertices due earlier,
then consult the model's state-dependent insertion rule on the working
state: an accepted candidate contributes a new diagonal vertex, a
rejected one is skipped silently. -/
def insertScan (m : model) : List Cand → List Vertex → (ℕ → ℤ) → List Vertex
  | [], vs, _ => vs
  | c :: cs, vs, ws =>
    let r := takeUpTo m c.tau vs ws
    r.1 ++
      (if m.insertValid c.bond r.2.2 then
        let nv := mkVertex m c r.2.2
        nv :: insertScan m cs r.2.1 (applyVertex m nv r.2.2)
      else insertScan m cs r.2.1 r.2.2)

/-- Modelled from the spec: `insert_vertices` (declared in `src/update.h`,
body not in `src/`) — seeds the working state from each site's initial
state, merges the sampled candidates (`cands`, in time order) with the
existing active sequence, inserting only rule-accepted candidates, writes
the result to the other buffer and toggles the flag. -/
def insert_vertices (w : world_line) (m : model) (cands : List Cand) : world_line :=
  w.withActive (insertScan m cands w.active w.istate)

/-- Strict ascent of a list of timestamps. -/
def ascendingTimes : List ℚ → Bool
  | [] => true
  | [_] => true
  | a :: b :: r => decide (a < b) && ascendingTimes (b :: r)

/-- The active-sequence ordering invariant: timestamps strictly increase. -/
def timeOrdered (l : List Vertex) : Bool := ascendingTimes (l.map Vertex.tau)

/-- Vertex `v` touches site `s` (under model `m`). -/
def touches (m : model) (v : Vertex) (s : ℕ) : Prop :=
  ∃ k < v.hNspin, m.bondSite v.bond k = s

/-- The incoming leg of the first vertex (from position `i` on) touching
site `s`, in time order — the reference value for the scan's first-leg
array. -/
def firstTouchLeg (m : model) : ℕ → List Vertex → ℕ → Option ℕ
  | _, [], _ => none
  | i, v :: vs, s =>
    match (inSites m i v).find? (fun p => decide (p.1 = s)) with
    | some p => some p.2
    | none => firstTouchLeg m (i + 1) vs s

/-- The outgoing leg of the last vertex (from position `i` on) touching
site `s`, in time order — the reference value for the scan's last-touch
array. -/
def lastTouchLeg (m : model) : ℕ → List Vertex → ℕ → Option ℕ
  | _, [], _ => none
  | i, v :: vs, s =>
    match lastTouchLeg m (i + 1) vs s with
    | some l => some l
    | none =>
      match (outSites m i v).reverse.find? (fun p => decide (p.1 = s)) with
      | some p => some p.2
      | none => none

/-- A concrete two-site, one-bond model used to instantiate theorems with
hypotheses: bond `0` joins sites `0` and `1` with subtype `1`, the
linking pattern joins each incoming leg to the matching outgoing leg and
to the site's last touch with weight `0`, and the insertion rule rejects
everything. -/
def mEx : model where
  nsite := 2
  nbond := 1
  bond2type := fun _ => 1
  bondNspin := fun _ => 2
  bondSite := fun _ k => k
  sameFamilyBond := fun _ b => b
  link := fun _ =>
    [⟨.slot 0, .slot 2, 0⟩, ⟨.slot 1, .slot 3, 0⟩,
     ⟨.slot 0, .lastT 0, 0⟩, ⟨.slot 1, .lastT 1, 0⟩]
  insertValid := fun _ _ => false

/-- A no-op vertex at time `1`: the states on both legs of both sites are
preserved across it. -/
def vNoop : Vertex := ⟨1, 0, 2, [1, -1, 1, -1]⟩

/-- A state-changing vertex at time `2`. -/
def vFlip : Vertex := ⟨2, 0, 2, [1, -1, -1, 1]⟩

/-- A concrete world-line state with two vertices in the active buffer. -/
def wEx : world_line where
  sequenceA := [vNoop, vFlip]
  sequenceB := []
  flag := false
  nsite := 2
  istate := fun _ => 1
  pstate := fun _ => 1
  cluster := fun j => j
  weight := fun _ => 0
  firstLeg := fun _ => none
  lastLeg := fun _ => none
  ninfection := 0
  nrecover := 0

/-- A model identical to `mEx` but whose insertion rule accepts every
candidate. -/
def mAcc : model := { mEx with insertValid := fun _ _ => true }

theorem active_withActive (w : world_line) (l : List Vertex) :
    (w.withActive l).active = l := by
  unfold world_line.withActive world_line.active
  by_cases h : w.flag <;> simp [h]

theorem flag_withActive (w : world_line) (l : List Vertex) :
    (w.withActive l).flag = !w.flag := by
  unfold world_line.withActive
  by_cases h : w.flag <;> simp [h]

theorem active_withActiveInPlace (w : world_line) (l : List Vertex) :
    (w.withActiveInPlace l).active = l := by
  unfold world_line.withActiveInPlace world_line.active
  by_cases h : w.flag <;> simp [h]

theorem remove_vertices_active (w : world_line) :
    (remove_vertices w).active = w.active.filter Vertex.changesState := by
  unfold remove_vertices
  show (world_line.active _) = _
  unfold world_line.withActive world_line.active
  by_cases h : w.flag <;> simp [h]

theorem changesState_iff (v : Vertex) :
    v.changesState = true ↔ ∃ i < v.hNspin, v.stateIn i ≠ v.stateOut i := by
  unfold Vertex.changesState
  simp [List.any_eq_true, List.mem_range]

theorem length_mapFrom {α : Type} (f : ℕ → α → α) (i : ℕ) (l : List α) :
    (mapFrom f i l).length = l.length := by
  induction l generalizing i with
  | nil => rfl
  | cons a l ih => simp [mapFrom, ih]

theorem map_mapFrom {α β : Type} (g : α → β) (f : ℕ → α → α) (i : ℕ) (l : List α)
    (h : ∀ j a, g (f j a) = g a) : (mapFrom f i l).map g = l.map g := by
  induction l generalizing i with
  | nil => rfl
  | cons a l ih => simp [mapFrom, h, ih]

theorem mapFrom_getElem? {α : Type} (f : ℕ → α → α) (i j : ℕ) (l : List α) :
    (mapFrom f i l)[j]? = (l[j]?).map (f (i + j)) := by
  induction l generalizing i j with
  | nil => simp [mapFrom]
  | cons a l ih =>
    cases j with
    | zero => simp [mapFrom]
    | succ j =>
      rw [show mapFrom f i (a :: l) = f i a :: mapFrom f (i + 1) l from rfl]
      rw [List.getElem?_cons_succ, List.getElem?_cons_succ, ih (i + 1) j]
      have e : i + 1 + j = i + (j + 1) := by omega
      rw [e]

theorem flag_withActiveInPlace (w : world_line) (l : List Vertex) :
    (w.withActiveInPlace l).flag = w.flag := by
  unfold world_line.withActiveInPlace
  by_cases h : w.flag <;> simp [h]

theorem swapBond_family (m : model) (r : ℕ) (c : Bool) (b : ℕ)
    (h135 : ∀ s u, typeFamily (m.bond2type u) = 0 →
      typeFamily (m.bond2type (m.sameFamilyBond s u)) = 0)
    (h246 : ∀ s u, typeFamily (m.bond2type u) = 1 →
      typeFamily (m.bond2type (m.sameFamilyBond s u)) = 1)
    (h7 : ∀ u, m.bond2type u = 7 → m.bond2type (u + m.nsite) = 8)
    (h8 : ∀ u, m.bond2type u = 8 → m.bond2type (u - m.nsite) = 7) :
    typeFamily (m.bond2type (swapBond m r c b)) = typeFamily (m.bond2type b) := by
  unfold swapBond
  by_cases t135 : m.bond2type b = 1 ∨ m.bond2type b = 3 ∨ m.bond2type b = 5
  · have hf : typeFamily (m.bond2type b) = 0 := by
      unfold typeFamily; simp [t135]
    simp only [t135, if_true, hf]
    exact h135 (r % 3) b hf
  · by_cases t246 : m.bond2type b = 2 ∨ m.bond2type b = 4 ∨ m.bond2type b = 6
    · have hf : typeFamily (m.bond2type b) = 1 := by
        unfold typeFamily; simp [t135, t246]
      simp only [t135, if_false, t246, if_true, hf]
      exact h246 (r % 3) b hf
    · by_cases t7 : m.bond2type b = 7
      · have hf : typeFamily (m.bond2type b) = 2 := by
          unfold typeFamily; simp [t135, t246, t7]
        simp only [t135, if_false, t246, t7, if_true]
        cases c with
        | false => simp [t7]
        | true =>
          simp only [if_true, hf]
          have := h7 b t7
          unfold typeFamily
          simp [this]
      · by_cases t8 : m.bond2type b = 8
        · have hf : typeFamily (m.bond2type b) = 2 := by
            unfold typeFamily; simp [t135, t246, t7, t8]
          simp only [t135, if_false, t246, t7, t8, if_true]
          cases c with
          | false => simp [t8]
          | true =>
            simp only [if_true, hf]
            have := h8 b t8
            unfold typeFamily
            simp [this]
        · simp [t135, t246, t7, t8]

theorem swapBond_type7 (m : model) (r : ℕ) (b : ℕ) (hb : m.bond2type b = 7) :
    swapBond m r true b = b + m.nsite ∧ swapBond m r false b = b := by
  unfold swapBond
  simp [hb]

theorem swapBond_type8 (m : model) (r : ℕ) (b : ℕ) (hb : m.bond2type b = 8) :
    swapBond m r true b = b - m.nsite ∧ swapBond m r false b = b := by
  unfold swapBond
  simp [hb]

/-- C4: `swapping_graphs` changes only the bond identifier of vertices and
always to a member of the same subtype family (given a model whose
same-family table and `{7,8}` offset behave as the spec states): the
sequence's length, time ordering (timestamps) and every leg state are
unchanged, the flag is untouched (no buffer swap), each vertex is rewritten
exactly by `swapVertex`, families are preserved, and subtypes `7`/`8`
toggle by adding/subtracting the site count when the coin says so. -/
theorem swapping_graphs_effect (m : model) (rngU : ℕ → ℕ) (rngC : ℕ → Bool)
    (w : world_line)
    (h135 : ∀ s u, typeFamily (m.bond2type u) = 0 →
      typeFamily (m.bond2type (m.sameFamilyBond s u)) = 0)
    (h246 : ∀ s u, typeFamily (m.bond2type u) = 1 →
      typeFamily (m.bond2type (m.sameFamilyBond s u)) = 1)
    (h7 : ∀ u, m.bond2type u = 7 → m.bond2type (u + m.nsite) = 8)
    (h8 : ∀ u, m.bond2type u = 8 → m.bond2type (u - m.nsite) = 7) :
    (swapping_graphs m rngU rngC w).flag = w.flag ∧
    (swapping_graphs m rngU rngC w).active.map Vertex.tau = w.active.map Vertex.tau ∧
    (swapping_graphs m rngU rngC w).active.map Vertex.state
      = w.active.map Vertex.state ∧
    (swapping_graphs m rngU rngC w).active.map Vertex.hNspin
      = w.active.map Vertex.hNspin ∧
    (∀ i, (swapping_graphs m rngU rngC w).active[i]?
      = (w.active[i]?).map (swapVertex m (rngU i) (rngC i))) ∧
    (∀ r c b, typeFamily (m.bond2type (swapBond m r c b))
      = typeFamily (m.bond2type b)) ∧
    (∀ r b, m.bond2type b = 7 →
      swapBond m r true b = b + m.nsite ∧ swapBond m r false b = b) ∧
    (∀ r b, m.bond2type b = 8 →
      swapBond m r true b = b - m.nsite ∧ swapBond m r false b = b) := by
  unfold swapping_graphs
  refine ⟨flag_withActiveInPlace _ _, ?_, ?_, ?_, ?_, ?_, ?_, ?_⟩
  · rw [active_withActiveInPlace]
    exact map_mapFrom _ _ _ _ (fun j a => rfl)
  · rw [active_withActiveInPlace]
    exact map_mapFrom _ _ _ _ (fun j a => rfl)
  · rw [active_withActiveInPlace]
    exact map_mapFrom _ _ _ _ (fun j a => rfl)
  · intro i
    rw [active_withActiveInPlace, mapFrom_getElem?]
    simp
  · intro r c b
    exact swapBond_family m r c b h135 h246 h7 h8
  · intro r b hb
    exact swapBond_type7 m r b hb
  · intro r b hb
    exact swapBond_type8 m r b hb

theorem mem_clusterOf_self (w : world_line) (l : ℕ) (hl : l ∈ legIds w) :
    l ∈ clusterOf w (rootOf w l) := by
  unfold clusterOf
  rw [Finset.mem_filter]
  exact ⟨hl, rfl⟩

theorem mem_clusterOf_root (w : world_line) (l r : ℕ) (h : l ∈ clusterOf w r) :
    rootOf w l = r := by
  unfold clusterOf at h
  rw [Finset.mem_filter] at h
  exact h.2

/-- C2: after `clustering`, every leg of the active sequence belongs to
exactly one cluster: each leg lies in the cluster of its own root, that
cluster is unique among the clusters of the occurring roots, the clusters
of all occurring roots together cover the full leg set, and clusters of
distinct roots are disjoint. -/
theorem clustering_covers (w : world_line) (m : model) :
    (∀ l ∈ legIds (clustering w m),
       l ∈ clusterOf (clustering w m) (rootOf (clustering w m) l)) ∧
    (∀ l ∈ legIds (clustering w m),
       ∃! r, r ∈ (legIds (clustering w m)).image (rootOf (clustering w m)) ∧
         l ∈ clusterOf (clustering w m) r) ∧
    ((legIds (clustering w m)).image (rootOf (clustering w m))).biUnion
        (clusterOf (clustering w m)) = legIds (clustering w m) ∧
    (∀ r1 r2, r1 ≠ r2 →
       Disjoint (clusterOf (clustering w m) r1) (clusterOf (clustering w m) r2)) := by
  refine ⟨?_, ?_, ?_, ?_⟩
  · intro l hl
    exact mem_clusterOf_self _ l hl
  · intro l hl
    refine ⟨rootOf (clustering w m) l,
      ⟨Finset.mem_image.mpr ⟨l, hl, rfl⟩, mem_clusterOf_self _ l hl⟩, ?_⟩
    intro r hr
    exact (mem_clusterOf_root _ l r hr.2).symm
  · ext l
    rw [Finset.mem_biUnion]
    constructor
    · rintro ⟨r, _, hlr⟩
      unfold clusterOf at hlr
      exact (Finset.mem_filter.mp hlr).1
    · intro hl
      exact ⟨rootOf (clustering w m) l, Finset.mem_image.mpr ⟨l, hl, rfl⟩,
        mem_clusterOf_self _ l hl⟩
  · intro r1 r2 hne
    rw [Finset.disjoint_left]
    intro l h1 h2
    exact hne ((mem_clusterOf_root _ l r1 h1).symm.trans (mem_clusterOf_root _ l r2 h2))

/-- C10: `clustering` is deterministic — it consumes no random stream, so
two calls on equal world-line states and equal models produce equal
cluster assignments, weights and first/last leg arrays. -/
theorem clustering_deterministic (w1 w2 : world_line) (m1 m2 : model)
    (hw : w1 = w2) (hm : m1 = m2) : clustering w1 m1 = clustering w2 m2 := by
  rw [hw, hm]

/-- C1: `remove_vertices` keeps a vertex in the output sequence iff at
least one of that vertex's legs changes state across the vertex; hence the
output contains no vertex all of whose legs are state-preserving, and
every removed vertex was a no-op event. -/
theorem remove_vertices_retention (w : world_line) (v : Vertex) :
    v ∈ (remove_vertices w).active ↔
      v ∈ w.active ∧ ∃ i < v.hNspin, v.stateIn i ≠ v.stateOut i := by
  rw [remove_vertices_active, List.mem_filter, changesState_iff]

theorem updFirst_eq (ps : List (ℕ × ℕ)) (f : ℕ → Option ℕ) (s : ℕ) :
    updFirst ps f s =
      match f s with
      | some x => some x
      | none => (ps.find? (fun p => decide (p.1 = s))).map Prod.snd := by
  induction ps generalizing f with
  | nil =>
    cases h : f s <;> simp [updFirst, h]
  | cons p rest ih =>
    obtain ⟨s0, l0⟩ := p
    unfold updFirst
    cases h0 : f s0 with
    | some y =>
      simp only [h0]
      rw [ih f]
      cases h : f s with
      | some x => simp
      | none =>
        have hne : ¬s0 = s := by
          intro e
          rw [e, h] at h0
          exact Option.noConfusion h0
        simp only [List.find?_cons]
        have : (decide (((s0, l0) : ℕ × ℕ).1 = s)) = false := by
          simpa using hne
        rw [this]
    | none =>
      simp only [h0]
      rw [ih]
      by_cases hs : s = s0
      · subst hs
        simp only [if_pos rfl]
        simp [h0, List.find?_cons]
      · simp only [if_neg hs]
        cases h : f s with
        | some x => simp
        | none =>
          simp only [List.find?_cons]
          have : (decide (((s0, l0) : ℕ × ℕ).1 = s)) = false := by
            simp
            intro e
            exact hs e.symm
          rw [this]

theorem updFirst_some (ps : List (ℕ × ℕ)) (f : ℕ → Option ℕ) (s x : ℕ)
    (h : f s = some x) : updFirst ps f s = some x := by
  rw [updFirst_eq, h]

theorem updLast_eq (ps : List (ℕ × ℕ)) (f : ℕ → Option ℕ) (s : ℕ) :
    updLast ps f s =
      match ps.reverse.find? (fun p => decide (p.1 = s)) with
      | some p => some p.2
      | none => f s := by
  induction ps generalizing f with
  | nil => simp [updLast]
  | cons p rest ih =>
    obtain ⟨s0, l0⟩ := p
    unfold updLast
    rw [ih]
    rw [List.reverse_cons, List.find?_append]
    cases h : rest.reverse.find? (fun p => decide (p.1 = s)) with
    | some q => rfl
    | none =>
      by_cases hs : s = s0
      · subst hs
        simp [List.find?_cons]
      · have : (decide (((s0, l0) : ℕ × ℕ).1 = s)) = false := by
          simp
          intro e
          exact hs e.symm
        simp only [List.find?_cons, this]
        simp [hs]

theorem firstTouchLeg_cons (m : model) (i : ℕ) (v : Vertex) (vs : List Vertex)
    (s : ℕ) :
    firstTouchLeg m i (v :: vs) s =
      match (inSites m i v).find? (fun p => decide (p.1 = s)) with
      | some p => some p.2
      | none => firstTouchLeg m (i + 1) vs s := rfl

theorem lastTouchLeg_cons (m : model) (i : ℕ) (v : Vertex) (vs : List Vertex)
    (s : ℕ) :
    lastTouchLeg m i (v :: vs) s =
      match lastTouchLeg m (i + 1) vs s with
      | some l => some l
      | none =>
        match (outSites m i v).reverse.find? (fun p => decide (p.1 = s)) with
        | some p => some p.2
        | none => none := rfl

theorem scan_fstL_some (m : model) (n : ℕ) (vs : List Vertex) (i : ℕ)
    (st : ClusterScan) (s x : ℕ) (h : st.fstL s = some x) :
    (clusterScanAux m n i vs st).fstL s = some x := by
  induction vs generalizing i st with
  | nil => exact h
  | cons v vs ih =>
    exact ih (i + 1) (clusterStep m n st i v) (updFirst_some _ _ _ _ h)

theorem scan_fstL (m : model) (n : ℕ) (vs : List Vertex) (i : ℕ)
    (st : ClusterScan) (s : ℕ) (h : st.fstL s = none) :
    (clusterScanAux m n i vs st).fstL s = firstTouchLeg m i vs s := by
  induction vs generalizing i st with
  | nil => exact h
  | cons v vs ih =>
    have hstep : (clusterStep m n st i v).fstL s =
        ((inSites m i v).find? (fun p => decide (p.1 = s))).map Prod.snd := by
      show updFirst (inSites m i v) st.fstL s = _
      rw [updFirst_eq, h]
    show (clusterScanAux m n (i + 1) vs (clusterStep m n st i v)).fstL s = _
    cases hf : (inSites m i v).find? (fun p => decide (p.1 = s)) with
    | some p =>
      rw [scan_fstL_some m n vs (i + 1) _ s p.2 (by rw [hstep, hf]; rfl)]
      rw [firstTouchLeg_cons, hf]
    | none =>
      rw [ih (i + 1) _ (by rw [hstep, hf]; rfl)]
      rw [firstTouchLeg_cons, hf]

theorem scan_lstL (m : model) (n : ℕ) (vs : List Vertex) (i : ℕ)
    (st : ClusterScan) (s : ℕ) :
    (clusterScanAux m n i vs st).lstL s =
      match lastTouchLeg m i vs s with
      | some l => some l
      | none => st.lstL s := by
  induction vs generalizing i st with
  | nil => rfl
  | cons v vs ih =>
    show (clusterScanAux m n (i + 1) vs (clusterStep m n st i v)).lstL s = _
    rw [ih (i + 1) (clusterStep m n st i v)]
    have hstep : (clusterStep m n st i v).lstL s =
        match (outSites m i v).reverse.find? (fun p => decide (p.1 = s)) with
        | some p => some p.2
        | none => st.lstL s := updLast_eq _ _ _
    cases hrec : lastTouchLeg m (i + 1) vs s with
    | some l =>
      have hc : lastTouchLeg m i (v :: vs) s = some l := by
        rw [lastTouchLeg_cons, hrec]
      rw [hc]
    | none =>
      rw [hstep]
      have hc : lastTouchLeg m i (v :: vs) s =
          match (outSites m i v).reverse.find? (fun p => decide (p.1 = s)) with
          | some p => some p.2
          | none => none := by
        rw [lastTouchLeg_cons, hrec]
      rw [hc]
      cases hf : (outSites m i v).reverse.find? (fun p => decide (p.1 = s)) <;> rfl

theorem clustering_firstLeg (w : world_line) (m : model) (s : ℕ) :
    (clustering w m).firstLeg s = firstTouchLeg m 0 w.active s := by
  show (clusterScanAux m (4 * w.active.length) 0 w.active initScan).fstL s = _
  exact scan_fstL m _ w.active 0 initScan s rfl

theorem clustering_lastLeg (w : world_line) (m : model) (s : ℕ) :
    (clustering w m).lastLeg s = lastTouchLeg m 0 w.active s := by
  show (clusterScanAux m (4 * w.active.length) 0 w.active initScan).lstL s = _
  rw [scan_lstL m _ w.active 0 initScan s]
  cases lastTouchLeg m 0 w.active s <;> rfl

theorem mem_inSites_fst (m : model) (i : ℕ) (v : Vertex) (p : ℕ × ℕ)
    (hp : p ∈ inSites m i v) : ∃ k < v.hNspin, m.bondSite v.bond k = p.1 := by
  unfold inSites at hp
  obtain ⟨k, hk, he⟩ := List.mem_map.mp hp
  exact ⟨k, List.mem_range.mp hk, by rw [← he]⟩

theorem touches_mem_inSites (m : model) (i : ℕ) (v : Vertex) (s : ℕ)
    (h : touches m v s) :
    ∃ p ∈ inSites m i v, p.1 = s := by
  obtain ⟨k, hk, hs⟩ := h
  exact ⟨(m.bondSite v.bond k, legId i k),
    List.mem_map.mpr ⟨k, List.mem_range.mpr hk, rfl⟩, hs⟩

theorem firstTouchLeg_none_iff (m : model) (i : ℕ) (l : List Vertex) (s : ℕ) :
    firstTouchLeg m i l s = none ↔ ∀ v ∈ l, ¬ touches m v s := by
  induction l generalizing i with
  | nil => simp [firstTouchLeg]
  | cons v vs ih =>
    rw [firstTouchLeg_cons]
    cases hf : (inSites m i v).find? (fun p => decide (p.1 = s)) with
    | some p =>
      simp only
      constructor
      · intro h
        exact Option.noConfusion h
      · intro h
        exfalso
        apply h v (List.mem_cons_self v vs)
        have hps := List.find?_some hf
        have hpm := List.mem_of_find?_eq_some hf
        obtain ⟨k, hk, he⟩ := mem_inSites_fst m i v p hpm
        exact ⟨k, hk, by rw [he]; exact of_decide_eq_true hps⟩
    | none =>
      simp only
      rw [ih (i + 1)]
      constructor
      · intro h u hu
        rcases List.mem_cons.mp hu with hu1 | hu2
        · subst hu1
          intro ht
          obtain ⟨p, hpm, hps⟩ := touches_mem_inSites m i u s ht
          have := List.find?_eq_none.mp hf p hpm
          rw [hps] at this
          simp at this
        · exact h u hu2
      · intro h u hu
        exact h u (List.mem_cons_of_mem v hu)

theorem mem_outSites_fst (m : model) (i : ℕ) (v : Vertex) (p : ℕ × ℕ)
    (hp : p ∈ outSites m i v) : ∃ k < v.hNspin, m.bondSite v.bond k = p.1 := by
  unfold outSites at hp
  obtain ⟨k, hk, he⟩ := List.mem_map.mp hp
  exact ⟨k, List.mem_range.mp hk, by rw [← he]⟩

theorem touches_mem_outSites (m : model) (i : ℕ) (v : Vertex) (s : ℕ)
    (h : touches m v s) :
    ∃ p ∈ outSites m i v, p.1 = s := by
  obtain ⟨k, hk, hs⟩ := h
  exact ⟨(m.bondSite v.bond k, legId i (v.hNspin + k)),
    List.mem_map.mpr ⟨k, List.mem_range.mpr hk, rfl⟩, hs⟩

theorem lastTouchLeg_none_iff (m : model) (i : ℕ) (l : List Vertex) (s : ℕ) :
    lastTouchLeg m i l s = none ↔ ∀ v ∈ l, ¬ touches m v s := by
  induction l generalizing i with
  | nil => simp [lastTouchLeg]
  | cons v vs ih =>
    rw [lastTouchLeg_cons]
    cases hrec : lastTouchLeg m (i + 1) vs s with
    | some x =>
      simp only
      constructor
      · intro h
        exact Option.noConfusion h
      · intro h
        exfalso
        have : lastTouchLeg m (i + 1) vs s = none :=
          (ih (i + 1)).mpr (fun u hu => h u (List.mem_cons_of_mem v hu))
        rw [hrec] at this
        exact Option.noConfusion this
    | none =>
      cases hf : (outSites m i v).reverse.find? (fun p => decide (p.1 = s)) with
      | some p =>
        simp only
        constructor
        · intro h
          exact Option.noConfusion h
        · intro h
          exfalso
          apply h v (List.mem_cons_self v vs)
          have hps := List.find?_some hf
          have hpm := List.mem_reverse.mp (List.mem_of_find?_eq_some hf)
          obtain ⟨k, hk, he⟩ := mem_outSites_fst m i v p hpm
          exact ⟨k, hk, by rw [he]; exact of_decide_eq_true hps⟩
      | none =>
        simp only
        constructor
        · intro _ u hu
          rcases List.mem_cons.mp hu with hu1 | hu2
          · subst hu1
            intro ht
            obtain ⟨p, hpm, hps⟩ := touches_mem_outSites m i u s ht
            have := List.find?_eq_none.mp hf p (List.mem_reverse.mpr hpm)
            rw [hps] at this
            simp at this
          · exact ((ih (i + 1)).mp hrec) u hu2
        · intro _
          trivial

theorem mapFrom_getD_lt {α : Type} (f : ℕ → α → α) (l : List α) (j : ℕ) (d : α)
    (hj : j < l.length) :
    (mapFrom f 0 l).getD j d = f j (l.getD j d) := by
  rw [List.getD_eq_getElem?_getD, List.getD_eq_getElem?_getD, mapFrom_getElem?]
  rw [List.getElem?_eq_getElem hj]
  simp

theorem flip_cluster_active (w : world_line) (rngF : ℕ → Bool) (rngS : ℕ → ℤ) :
    (flip_cluster w rngF rngS).active
      = mapFrom (flipVertex w rngF (4 * w.active.length)) 0 w.active := by
  unfold flip_cluster world_line.withActiveInPlace world_line.active
  by_cases h : w.flag <;> simp [h]

theorem flip_cluster_istate (w : world_line) (rngF : ℕ → Bool) (rngS : ℕ → ℤ)
    (s : ℕ) :
    (flip_cluster w rngF rngS).istate s =
      match w.firstLeg s with
      | some l =>
        legState (mapFrom (flipVertex w rngF (4 * w.active.length)) 0 w.active) l
      | none => rngS s := rfl

theorem flip_cluster_pstate (w : world_line) (rngF : ℕ → Bool) (rngS : ℕ → ℤ)
    (s : ℕ) :
    (flip_cluster w rngF rngS).pstate s =
      match w.lastLeg s with
      | some l =>
        legState (mapFrom (flipVertex w rngF (4 * w.active.length)) 0 w.active) l
      | none => rngS s := rfl

/-- C3: `flip_cluster` makes one decision per distinct cluster root (the
decision is a function of the root alone) and applies it atomically: each
vertex is rewritten by `flipVertex`, which inverts exactly the legs whose
cluster decision is "flip" — never part of a cluster — and a cluster of
weight zero (free cluster) flips unconditionally. -/
theorem flip_cluster_atomic (w : world_line) (rngF : ℕ → Bool) (rngS : ℕ → ℤ) :
    (∀ i, (flip_cluster w rngF rngS).active[i]?
        = (w.active[i]?).map (flipVertex w rngF (4 * w.active.length) i)) ∧
    (∀ i v j, j < v.state.length →
      (flipVertex w rngF (4 * w.active.length) i v).state.getD j 0
        = (if flipDecision w rngF (findRoot w.cluster (4 * w.active.length) (legId i j))
           then -(v.state.getD j 0) else v.state.getD j 0)) ∧
    (∀ i1 j1 i2 j2,
      findRoot w.cluster (4 * w.active.length) (legId i1 j1)
        = findRoot w.cluster (4 * w.active.length) (legId i2 j2) →
      flipDecision w rngF (findRoot w.cluster (4 * w.active.length) (legId i1 j1))
        = flipDecision w rngF (findRoot w.cluster (4 * w.active.length) (legId i2 j2))) ∧
    (∀ r, w.weight r = 0 → flipDecision w rngF r = true) := by
  refine ⟨?_, ?_, ?_, ?_⟩
  · intro i
    rw [flip_cluster_active, mapFrom_getElem?]
    simp
  · intro i v j hj
    show (mapFrom
        (fun j s =>
          if flipDecision w rngF (findRoot w.cluster (4 * w.active.length) (legId i j))
          then -s else s) 0 v.state).getD j 0 = _
    rw [mapFrom_getD_lt _ _ _ _ hj]
  · intro i1 j1 i2 j2 h
    rw [h]
  · intro r h
    unfold flipDecision
    rw [if_pos h]

/-- C8: `clustering` records per site the incoming leg of the first
touching vertex and the outgoing leg of the last touching vertex in time
order (the sentinel `none` iff no vertex touches the site), and
`flip_cluster` then recomputes each site's initial-state entry from the
post-flip state on the recorded first leg and the projected-state entry
from the recorded last leg; a site carrying the sentinel is assigned the
independently drawn random state `rngS`. -/
theorem flip_cluster_boundary_states (w : world_line) (m : model)
    (rngF : ℕ → Bool) (rngS : ℕ → ℤ) :
    (∀ s, (clustering w m).firstLeg s = firstTouchLeg m 0 w.active s) ∧
    (∀ s, (clustering w m).lastLeg s = lastTouchLeg m 0 w.active s) ∧
    (∀ s, firstTouchLeg m 0 w.active s = none ↔ ∀ v ∈ w.active, ¬ touches m v s) ∧
    (∀ s, lastTouchLeg m 0 w.active s = none ↔ ∀ v ∈ w.active, ¬ touches m v s) ∧
    (∀ s l, w.firstLeg s = some l →
      (flip_cluster w rngF rngS).istate s
        = legState (flip_cluster w rngF rngS).active l) ∧
    (∀ s, w.firstLeg s = none → (flip_cluster w rngF rngS).istate s = rngS s) ∧
    (∀ s l, w.lastLeg s = some l →
      (flip_cluster w rngF rngS).pstate s
        = legState (flip_cluster w rngF rngS).active l) ∧
    (∀ s, w.lastLeg s = none → (flip_cluster w rngF rngS).pstate s = rngS s) := by
  refine ⟨clustering_firstLeg w m, clustering_lastLeg w m,
    firstTouchLeg_none_iff m 0 w.active, lastTouchLeg_none_iff m 0 w.active,
    ?_, ?_, ?_, ?_⟩
  · intro s l h
    rw [flip_cluster_istate, h, flip_cluster_active]
  · intro s h
    rw [flip_cluster_istate, h]
  · intro s l h
    rw [flip_cluster_pstate, h, flip_cluster_active]
  · intro s h
    rw [flip_cluster_pstate, h]

theorem remove_only_fixed_active (w : world_line) :
    (remove_only_fixed_vertices w).active = filterFrom (keepFixed w) 0 w.active := by
  unfold remove_only_fixed_vertices
  show world_line.active _ = _
  unfold world_line.withActive world_line.active
  by_cases h : w.flag <;> simp [h]

/-- C5: `remove_only_fixed_vertices` filters the active sequence with the
positional retention test `keepFixed`, and that test succeeds iff at least
one leg changes state across the vertex or one of the vertex's legs
belongs to a cluster whose weight is nonzero (not a free cluster), read
from the cluster/weight arrays currently in the world-line state. -/
theorem remove_only_fixed_retention (w : world_line) :
    ((remove_only_fixed_vertices w).active = filterFrom (keepFixed w) 0 w.active) ∧
    (∀ i v, keepFixed w i v = true ↔
      ((∃ k < v.hNspin, v.stateIn k ≠ v.stateOut k) ∨
       (∃ j < 2 * v.hNspin, w.weight (rootOf w (legId i j)) ≠ 0))) := by
  refine ⟨remove_only_fixed_active w, ?_⟩
  intro i v
  unfold keepFixed
  rw [Bool.or_eq_true, changesState_iff]
  simp [List.any_eq_true, List.mem_range]

theorem findRoot_lt (p : ℕ → ℕ) (n : ℕ) (hp : ∀ j, j < n → p j < n) :
    ∀ fuel i, i < n → findRoot p fuel i < n := by
  intro fuel
  induction fuel with
  | zero => intro i hi; exact hi
  | succ f ih =>
    intro i hi
    unfold findRoot
    by_cases h : p i = i
    · rw [if_pos h]
      exact hi
    · rw [if_neg h]
      exact ih (p i) (hp i hi)

theorem union_parent_lt (u : UF) (n a b : ℕ) (t : ℤ)
    (hu : ∀ j, j < n → u.parent j < n) (_ha : a < n) (hb : b < n) :
    ∀ j, j < n → (u.union n a b t).parent j < n := by
  intro j hj
  unfold UF.union
  by_cases h : findRoot u.parent n a = findRoot u.parent n b
  · rw [if_pos h]
    exact hu j hj
  · rw [if_neg h]
    show (if j = findRoot u.parent n a then findRoot u.parent n b else u.parent j) < n
    by_cases hja : j = findRoot u.parent n a
    · rw [if_pos hja]
      exact findRoot_lt u.parent n hu n b hb
    · rw [if_neg hja]
      exact hu j hj

theorem mem_outSites_snd (m : model) (i : ℕ) (v : Vertex) (p : ℕ × ℕ)
    (hp : p ∈ outSites m i v) : ∃ k < v.hNspin, p.2 = legId i (v.hNspin + k) := by
  unfold outSites at hp
  obtain ⟨k, hk, he⟩ := List.mem_map.mp hp
  exact ⟨k, List.mem_range.mp hk, by rw [← he]⟩

theorem clusterStep_inv (m : model) (n i : ℕ) (st : ClusterScan) (v : Vertex)
    (hns : v.hNspin ≤ 2) (hi4 : 4 * (i + 1) ≤ n)
    (hp : ∀ j, j < n → st.uf.parent j < n)
    (hl : ∀ s l, st.lstL s = some l → l < n) :
    (∀ j, j < n → (clusterStep m n st i v).uf.parent j < n) ∧
    (∀ s l, (clusterStep m n st i v).lstL s = some l → l < n) := by
  have hres : ∀ (e : LegRef) (x : ℕ), resolveRef m v i st.lstL e = some x → x < n := by
    intro e x he
    cases e with
    | slot j =>
      unfold resolveRef at he
      injection he with he
      rw [← he]
      unfold legId
      have := j.isLt
      omega
    | lastT k => exact hl _ x he
  constructor
  · have key : ∀ (es : List LinkEntry) (u : UF), (∀ j, j < n → u.parent j < n) →
        ∀ j, j < n →
        (es.foldl (fun u e =>
          match resolveRef m v i st.lstL e.a, resolveRef m v i st.lstL e.b with
          | some x, some y => u.union n x y e.wt
          | _, _ => u) u).parent j < n := by
      intro es
      induction es with
      | nil => intro u hu j hj; exact hu j hj
      | cons e es ih =>
        intro u hu
        apply ih
        cases hea : resolveRef m v i st.lstL e.a with
        | none => simpa [hea] using hu
        | some x =>
          cases heb : resolveRef m v i st.lstL e.b with
          | none => simpa [hea, heb] using hu
          | some y =>
            simp only [hea, heb]
            exact union_parent_lt u n x y e.wt hu (hres e.a x hea) (hres e.b y heb)
    exact key (m.link (m.bond2type v.bond)) st.uf hp
  · intro s l h
    have h2 : updLast (outSites m i v) st.lstL s = some l := h
    rw [updLast_eq] at h2
    cases hf : (outSites m i v).reverse.find? (fun p => decide (p.1 = s)) with
    | some p =>
      rw [hf] at h2
      injection h2 with h2
      obtain ⟨k, hk, he⟩ :=
        mem_outSites_snd m i v p (List.mem_reverse.mp (List.mem_of_find?_eq_some hf))
      rw [← h2, he]
      unfold legId
      omega
    | none =>
      rw [hf] at h2
      exact hl s l h2

theorem scan_parent_lt (m : model) (n : ℕ) (vs : List Vertex) :
    ∀ (i : ℕ) (st : ClusterScan),
    (∀ v ∈ vs, v.hNspin ≤ 2) → 4 * (i + vs.length) ≤ n →
    (∀ j, j < n → st.uf.parent j < n) → (∀ s l, st.lstL s = some l → l < n) →
    ∀ j, j < n → (clusterScanAux m n i vs st).uf.parent j < n := by
  induction vs with
  | nil => intro i st _ _ hp _ j hj; exact hp j hj
  | cons v vs ih =>
    intro i st hns hlen hp hl j hj
    have h4 : 4 * (i + 1) ≤ n := by
      simp only [List.length_cons] at hlen
      omega
    obtain ⟨hp2, hl2⟩ :=
      clusterStep_inv m n i st v (hns v (List.mem_cons_self v vs)) h4 hp hl
    refine ih (i + 1) (clusterStep m n st i v)
      (fun u hu => hns u (List.mem_cons_of_mem v hu)) ?_ hp2 hl2 j hj
    simp only [List.length_cons] at hlen
    omega

theorem clustering_cluster_lt (w : world_line) (m : model)
    (hw : ∀ v ∈ w.active, v.hNspin ≤ 2) :
    ∀ j, j < 4 * w.active.length →
      (clustering w m).cluster j < 4 * w.active.length := by
  intro j hj
  show (clusterScanAux m (4 * w.active.length) 0 w.active initScan).uf.parent j < _
  refine scan_parent_lt m (4 * w.active.length) w.active 0 initScan hw
    (by omega) (fun j hj => hj) (fun s l h => Option.noConfusion h) j hj

theorem clustering_active (w : world_line) (m : model) :
    (clustering w m).active = w.active := rfl

/-- C9: the update stages are total on any well-formed world-line state:
`remove_vertices` maps every state to a state with at most as many
vertices, `swapping_graphs` and `flip_cluster` keep every vertex and
assign each a value, `clustering` touches no sequence and assigns every
flat leg a cluster root that is again a valid flat leg (given each vertex
has at most two incident sites); no branch is left unassigned. -/
theorem pipeline_total (w : world_line) (m : model) (rngU : ℕ → ℕ)
    (rngC : ℕ → Bool) (rngF : ℕ → Bool) (rngS : ℕ → ℤ)
    (hw : ∀ v ∈ w.active, v.hNspin ≤ 2) :
    ((remove_vertices w).active.length ≤ w.active.length) ∧
    ((swapping_graphs m rngU rngC w).active.length = w.active.length) ∧
    ((clustering w m).active = w.active) ∧
    (∀ l, l < 4 * w.active.length →
       rootOf (clustering w m) l < 4 * w.active.length) ∧
    ((flip_cluster w rngF rngS).active.length = w.active.length) := by
  refine ⟨?_, ?_, clustering_active w m, ?_, ?_⟩
  · rw [remove_vertices_active]
    exact List.length_filter_le _ _
  · unfold swapping_graphs
    rw [active_withActiveInPlace, length_mapFrom]
  · intro l hl
    unfold rootOf
    rw [clustering_active]
    exact findRoot_lt _ _ (clustering_cluster_lt w m hw) _ l hl
  · rw [flip_cluster_active, length_mapFrom]

theorem takeUpTo_append (m : model) (t : ℚ) (vs : List Vertex) (ws : ℕ → ℤ) :
    (takeUpTo m t vs ws).1 ++ (takeUpTo m t vs ws).2.1 = vs := by
  induction vs generalizing ws with
  | nil => rfl
  | cons v vs ih =>
    unfold takeUpTo
    by_cases h : v.tau ≤ t
    · rw [if_pos h]
      simp [ih]
    · rw [if_neg h]
      rfl

theorem takeUpTo_fst_le (m : model) (t : ℚ) (vs : List Vertex) (ws : ℕ → ℤ) :
    ∀ x ∈ (takeUpTo m t vs ws).1, x.tau ≤ t := by
  induction vs generalizing ws with
  | nil => intro x hx; exact absurd hx (List.not_mem_nil x)
  | cons v vs ih =>
    intro x hx
    unfold takeUpTo at hx
    by_cases h : v.tau ≤ t
    · rw [if_pos h] at hx
      rcases List.mem_cons.mp hx with h1 | h2
      · rw [h1]; exact h
      · exact ih (applyVertex m v ws) x h2
    · rw [if_neg h] at hx
      exact absurd hx (List.not_mem_nil x)

theorem takeUpTo_rest_gt (m : model) (t : ℚ) (vs : List Vertex) (ws : ℕ → ℤ)
    (hvs : List.Pairwise (fun a b : Vertex => a.tau < b.tau) vs) :
    ∀ x ∈ (takeUpTo m t vs ws).2.1, t < x.tau := by
  induction vs generalizing ws with
  | nil => intro x hx; exact absurd hx (List.not_mem_nil x)
  | cons v vs ih =>
    intro x hx
    unfold takeUpTo at hx
    by_cases h : v.tau ≤ t
    · rw [if_pos h] at hx
      exact ih (applyVertex m v ws) (List.Pairwise.of_cons hvs) x hx
    · rw [if_neg h] at hx
      push_neg at h
      rcases List.mem_cons.mp hx with h1 | h2
      · rw [h1]; exact h
      · exact lt_trans h ((List.pairwise_cons.mp hvs).1 x h2)

theorem mem_takeUpTo_fst (m : model) (t : ℚ) (vs : List Vertex) (ws : ℕ → ℤ)
    (x : Vertex) (hx : x ∈ (takeUpTo m t vs ws).1) : x ∈ vs := by
  rw [← takeUpTo_append m t vs ws]
  exact List.mem_append_left _ hx

theorem mem_takeUpTo_rest (m : model) (t : ℚ) (vs : List Vertex) (ws : ℕ → ℤ)
    (x : Vertex) (hx : x ∈ (takeUpTo m t vs ws).2.1) : x ∈ vs := by
  rw [← takeUpTo_append m t vs ws]
  exact List.mem_append_right _ hx

theorem mkVertex_tau (m : model) (c : Cand) (ws : ℕ → ℤ) :
    (mkVertex m c ws).tau = c.tau := rfl

theorem insertScan_all_rejected (m : model)
    (hrej : ∀ b s, m.insertValid b s = false) :
    ∀ (cands : List Cand) (vs : List Vertex) (ws : ℕ → ℤ),
    insertScan m cands vs ws = vs := by
  intro cands
  induction cands with
  | nil => intro vs ws; rfl
  | cons c cs ih =>
    intro vs ws
    unfold insertScan
    simp [hrej, ih, takeUpTo_append]

theorem insertScan_provenance (m : model) :
    ∀ (cands : List Cand) (vs : List Vertex) (ws : ℕ → ℤ),
    ∀ x ∈ insertScan m cands vs ws,
      x ∈ vs ∨ ∃ c ∈ cands, ∃ st, m.insertValid c.bond st = true ∧
        x = mkVertex m c st := by
  intro cands
  induction cands with
  | nil => intro vs ws x hx; exact Or.inl hx
  | cons c cs ih =>
    intro vs ws x hx
    unfold insertScan at hx
    rcases List.mem_append.mp hx with hpre | hrest
    · exact Or.inl (mem_takeUpTo_fst m c.tau vs ws x hpre)
    · by_cases hacc : m.insertValid c.bond (takeUpTo m c.tau vs ws).2.2 = true
      · rw [if_pos hacc] at hrest
        rcases List.mem_cons.mp hrest with h1 | h2
        · exact Or.inr ⟨c, List.mem_cons_self c cs, (takeUpTo m c.tau vs ws).2.2,
            hacc, h1⟩
        · rcases ih (takeUpTo m c.tau vs ws).2.1 _ x h2 with hv | ⟨c2, hc2, st, hst, he⟩
          · exact Or.inl (mem_takeUpTo_rest m c.tau vs ws x hv)
          · exact Or.inr ⟨c2, List.mem_cons_of_mem c hc2, st, hst, he⟩
      · rw [if_neg hacc] at hrest
        rcases ih (takeUpTo m c.tau vs ws).2.1 _ x hrest with hv | ⟨c2, hc2, st, hst, he⟩
        · exact Or.inl (mem_takeUpTo_rest m c.tau vs ws x hv)
        · exact Or.inr ⟨c2, List.mem_cons_of_mem c hc2, st, hst, he⟩

theorem insertScan_tau_provenance (m : model) :
    ∀ (cands : List Cand) (vs : List Vertex) (ws : ℕ → ℤ),
    ∀ x ∈ insertScan m cands vs ws,
      (∃ c ∈ cands, x.tau = c.tau) ∨ (∃ y ∈ vs, x.tau = y.tau) := by
  intro cands vs ws x hx
  rcases insertScan_provenance m cands vs ws x hx with hv | ⟨c, hc, st, _, he⟩
  · exact Or.inr ⟨x, hv, rfl⟩
  · exact Or.inl ⟨c, hc, by rw [he, mkVertex_tau]⟩

theorem insert_vertices_active (w : world_line) (m : model) (cands : List Cand) :
    (insert_vertices w m cands).active = insertScan m cands w.active w.istate :=
  active_withActive w _

/-- C6: `insert_vertices` inserts a candidate only if the model's
state-dependent rule accepts it under the working state at that point
(every output vertex is either an input vertex or the diagonal vertex
built from an accepted candidate at the working state where it was
accepted); rejected candidates are skipped silently, so when the rule
rejects everything the output sequence is identical to the input — in
particular an empty active sequence stays empty. -/
theorem insert_vertices_rule (w : world_line) (m : model) (cands : List Cand) :
    (∀ x ∈ (insert_vertices w m cands).active,
       x ∈ w.active ∨ ∃ c ∈ cands, ∃ st, m.insertValid c.bond st = true ∧
         x = mkVertex m c st) ∧
    ((∀ b s, m.insertValid b s = false) →
       (insert_vertices w m cands).active = w.active) ∧
    ((∀ b s, m.insertValid b s = false) → w.active = [] →
       (insert_vertices w m cands).active = []) := by
  refine ⟨?_, ?_, ?_⟩
  · intro x hx
    rw [insert_vertices_active] at hx
    exact insertScan_provenance m cands w.active w.istate x hx
  · intro hrej
    rw [insert_vertices_active]
    exact insertScan_all_rejected m hrej cands w.active w.istate
  · intro hrej hemp
    rw [insert_vertices_active, insertScan_all_rejected m hrej cands w.active w.istate]
    exact hemp

theorem ascendingTimes_iff_chain (qs : List ℚ) :
    ascendingTimes qs = true ↔ List.Chain' (fun a b : ℚ => a < b) qs := by
  induction qs with
  | nil => simp [ascendingTimes]
  | cons a qs ih =>
    cases qs with
    | nil => simp [ascendingTimes]
    | cons b r =>
      rw [List.chain'_cons]
      unfold ascendingTimes
      rw [Bool.and_eq_true, decide_eq_true_iff, ih]

theorem timeOrdered_iff (l : List Vertex) :
    timeOrdered l = true ↔
      List.Pairwise (fun a b : Vertex => a.tau < b.tau) l := by
  unfold timeOrdered
  rw [ascendingTimes_iff_chain, List.chain'_iff_pairwise, List.pairwise_map]

theorem insertScan_sorted (m : model) :
    ∀ (cands : List Cand) (vs : List Vertex) (ws : ℕ → ℤ),
    List.Pairwise (fun a b : Cand => a.tau < b.tau) cands →
    List.Pairwise (fun a b : Vertex => a.tau < b.tau) vs →
    (∀ c ∈ cands, ∀ v ∈ vs, c.tau ≠ v.tau) →
    List.Pairwise (fun a b : Vertex => a.tau < b.tau) (insertScan m cands vs ws) := by
  intro cands
  induction cands with
  | nil => intro vs ws _ hvs _; exact hvs
  | cons c cs ih =>
    intro vs ws hc hvs hfresh
    have hsplit := takeUpTo_append m c.tau vs ws
    have hvs2 := hvs
    rw [← hsplit] at hvs2
    obtain ⟨hpre, hrest, hcross⟩ := List.pairwise_append.mp hvs2
    have hcs : List.Pairwise (fun a b : Cand => a.tau < b.tau) cs :=
      (List.pairwise_cons.mp hc).2
    have hchead : ∀ c2 ∈ cs, c.tau < c2.tau := (List.pairwise_cons.mp hc).1
    have hfresh2 : ∀ c2 ∈ cs, ∀ v ∈ (takeUpTo m c.tau vs ws).2.1, c2.tau ≠ v.tau :=
      fun c2 hc2 v hv =>
        hfresh c2 (List.mem_cons_of_mem c hc2) v (mem_takeUpTo_rest m c.tau vs ws v hv)
    have hgt := takeUpTo_rest_gt m c.tau vs ws hvs
    have hle := takeUpTo_fst_le m c.tau vs ws
    have hrec_tau : ∀ (ws2 : ℕ → ℤ)
        (x : Vertex), x ∈ insertScan m cs (takeUpTo m c.tau vs ws).2.1 ws2 →
        c.tau < x.tau := by
      intro ws2 x hx
      rcases insertScan_tau_provenance m cs (takeUpTo m c.tau vs ws).2.1 ws2 x hx with
        ⟨c2, hc2, he⟩ | ⟨y, hy, he⟩
      · rw [he]; exact hchead c2 hc2
      · rw [he]; exact hgt y hy
    have hpre_lt : ∀ a ∈ (takeUpTo m c.tau vs ws).1, a.tau < c.tau := by
      intro a ha
      have h1 := hle a ha
      have h2 := hfresh c (List.mem_cons_self c cs) a (mem_takeUpTo_fst m c.tau vs ws a ha)
      exact lt_of_le_of_ne h1 (fun e => h2 e.symm)
    have hpre_rec : ∀ (ws2 : ℕ → ℤ) (a : Vertex),
        a ∈ (takeUpTo m c.tau vs ws).1 →
        ∀ (x : Vertex), x ∈ insertScan m cs (takeUpTo m c.tau vs ws).2.1 ws2 →
        a.tau < x.tau := by
      intro ws2 a ha x hx
      rcases insertScan_tau_provenance m cs (takeUpTo m c.tau vs ws).2.1 ws2 x hx with
        ⟨c2, hc2, he⟩ | ⟨y, hy, he⟩
      · rw [he]; exact lt_trans (hpre_lt a ha) (hchead c2 hc2)
      · rw [he]; exact hcross a ha y hy
    show List.Pairwise _ ((takeUpTo m c.tau vs ws).1 ++ _)
    by_cases hacc : m.insertValid c.bond (takeUpTo m c.tau vs ws).2.2 = true
    · rw [if_pos hacc]
      refine List.pairwise_append.mpr ⟨hpre, ?_, ?_⟩
      · refine List.pairwise_cons.mpr ⟨?_, ?_⟩
        · intro x hx
          rw [mkVertex_tau]
          exact hrec_tau _ x hx
        · exact ih (takeUpTo m c.tau vs ws).2.1 _ hcs hrest hfresh2
      · intro a ha b hb
        rcases List.mem_cons.mp hb with h1 | h2
        · rw [h1, mkVertex_tau]
          exact hpre_lt a ha
        · exact hpre_rec _ a ha b h2
    · rw [if_neg hacc]
      refine List.pairwise_append.mpr ⟨hpre, ?_, ?_⟩
      · exact ih (takeUpTo m c.tau vs ws).2.1 _ hcs hrest hfresh2
      · intro a ha b hb
        exact hpre_rec _ a ha b hb

theorem timeOrdered_map_tau_eq (l1 l2 : List Vertex)
    (h : l1.map Vertex.tau = l2.map Vertex.tau) :
    timeOrdered l1 = timeOrdered l2 := by
  unfold timeOrdered
  rw [h]

/-- C7 (amended): every stage preserves strict time order — Removal,
Cluster Building and Cluster Flip unconditionally, Bond Resampling
without even changing the timestamp list — while Insertion preserves it
provided the candidate times are strictly increasing and distinct from
the existing vertex timestamps (with a coinciding candidate time the
merged sequence contains a duplicate timestamp and strictness is lost,
see the counterexample). -/
theorem pipeline_order_preservation (w : world_line) (m : model)
    (rngU : ℕ → ℕ) (rngC : ℕ → Bool) (rngF : ℕ → Bool) (rngS : ℕ → ℤ)
    (cands : List Cand) :
    (timeOrdered w.active = true → timeOrdered (remove_vertices w).active = true) ∧
    (timeOrdered (swapping_graphs m rngU rngC w).active = timeOrdered w.active) ∧
    ((clustering w m).active = w.active) ∧
    (timeOrdered (flip_cluster w rngF rngS).active = timeOrdered w.active) ∧
    (timeOrdered w.active = true →
      List.Pairwise (fun a b : Cand => a.tau < b.tau) cands →
      (∀ c ∈ cands, ∀ v ∈ w.active, c.tau ≠ v.tau) →
      timeOrdered (insert_vertices w m cands).active = true) := by
  refine ⟨?_, ?_, clustering_active w m, ?_, ?_⟩
  · intro h
    rw [remove_vertices_active, timeOrdered_iff]
    exact ((timeOrdered_iff w.active).mp h).sublist (List.filter_sublist w.active)
  · unfold swapping_graphs
    rw [active_withActiveInPlace]
    exact timeOrdered_map_tau_eq _ _ (map_mapFrom Vertex.tau _ 0 w.active (fun j a => rfl))
  · rw [flip_cluster_active]
    exact timeOrdered_map_tau_eq _ _ (map_mapFrom Vertex.tau _ 0 w.active (fun j a => rfl))
  · intro h hc hfresh
    rw [insert_vertices_active, timeOrdered_iff]
    exact insertScan_sorted m cands w.active w.istate hc
      ((timeOrdered_iff w.active).mp h) hfresh

/-- C7 counterexample: on the concrete state `wEx` (active vertices at
times `1` and `2`, strictly increasing) with the always-accepting model
`mAcc`, Insertion at the single candidate time `1` — which collides with
an existing timestamp — produces a sequence whose timestamps are no
longer strictly increasing, refuting order preservation for the
Insertion stage as claimed. -/
theorem insert_vertices_order_cex :
    timeOrdered wEx.active = true ∧
    timeOrdered (insert_vertices wEx mAcc [⟨1, 0⟩]).active = false := by
  constructor
  · rfl
  · rfl

/-- Witness for C2: on the concrete state `wEx`/`mEx`, leg `0` lies in the
cluster of its own root. -/
theorem clustering_covers_witness :
    (0 : ℕ) ∈ clusterOf (clustering wEx mEx) (rootOf (clustering wEx mEx) 0) :=
  (clustering_covers wEx mEx).1 0 (by decide)

/-- Witness for C3: on `wEx`, leg `(0,0)` of `vFlip` is rewritten exactly
by the decision of its cluster root. -/
theorem flip_cluster_atomic_witness :
    (flipVertex wEx (fun _ => false) (4 * wEx.active.length) 0 vFlip).state.getD 0 0
      = (if flipDecision wEx (fun _ => false)
            (findRoot wEx.cluster (4 * wEx.active.length) (legId 0 0))
         then -(vFlip.state.getD 0 0) else vFlip.state.getD 0 0) :=
  (flip_cluster_atomic wEx (fun _ => false) (fun _ => 0)).2.1 0 vFlip 0 (by decide)

/-- Witness for C4: on `wEx`/`mEx` the resampler performs no buffer
swap. -/
theorem swapping_graphs_effect_witness :
    (swapping_graphs mEx (fun _ => 0) (fun _ => true) wEx).flag = wEx.flag :=
  (swapping_graphs_effect mEx (fun _ => 0) (fun _ => true) wEx
    (fun _ _ h => h) (fun _ _ h => by simp [mEx, typeFamily] at h)
    (fun _ h => by simp [mEx] at h) (fun _ h => by simp [mEx] at h)).1

/-- Witness for C6: with the everywhere-rejecting rule of `mEx`, Insertion
at candidate time `3` leaves the active sequence unchanged. -/
theorem insert_vertices_rule_witness :
    (insert_vertices wEx mEx [⟨3, 0⟩]).active = wEx.active :=
  (insert_vertices_rule wEx mEx [⟨3, 0⟩]).2.1 (fun _ _ => rfl)

/-- Witness for C7 (amended): with the accepting model `mAcc` and the
fresh candidate time `3`, Insertion on `wEx` preserves strict time
order. -/
theorem pipeline_order_preservation_witness :
    timeOrdered (insert_vertices wEx mAcc [⟨3, 0⟩]).active = true :=
  (pipeline_order_preservation wEx mAcc (fun _ => 0) (fun _ => true)
    (fun _ => true) (fun _ => 0) [⟨3, 0⟩]).2.2.2.2 rfl (by simp) (by decide)

/-- Witness for C8: on `wEx` (all first-leg entries at the boundary
sentinel), site `0`'s initial state is the independent random draw. -/
theorem flip_cluster_boundary_states_witness :
    (flip_cluster wEx (fun _ => true) (fun _ => 7)).istate 0 = 7 :=
  (flip_cluster_boundary_states wEx mEx (fun _ => true)
    (fun _ => 7)).2.2.2.2.2.1 0 rfl

/-- Witness for C9: on `wEx` (every vertex touches at most two sites),
Removal does not lengthen the active sequence. -/
theorem pipeline_total_witness :
    (remove_vertices wEx).active.length ≤ wEx.active.length :=
  (pipeline_total wEx mEx (fun _ => 0) (fun _ => true) (fun _ => true)
    (fun _ => 0) (by decide)).1

/-- Witness for C10: two calls of `clustering` on the concrete equal
inputs agree. -/
theorem clustering_deterministic_witness :
    clustering wEx mEx = clustering wEx mEx :=
  clustering_deterministic wEx wEx mEx mEx rfl rfl
